import Mathlib

/-!
Verification of the BGVR fixture-generation and validation scripts.

Shallow embedding of the Python scripts under `src/chapter_09`
(`experiment_9_2/generate_data.py`, `experiment_9_4/generate_the_data.py`,
`experiment_9_6/scripts/generate_sample_data.py`,
`experiment_9_6/scripts/validate_input.py`) together with proofs of the
spec's testable properties.

Randomness is modelled by an explicit pseudo-random state: a stream of
natural numbers together with a position.  Each primitive draw of the
Python `random` / `numpy.random` modules consumes one stream value and is
mapped into the range the library call would produce.  All properties are
proved for every stream, hence they hold for the seeded Mersenne-Twister
stream of the actual interpreter.
-/

namespace BGVR

/-- The state of the pseudo-random generator: an infinite stream of raw
draws and the position of the next unconsumed draw. -/
structure RandState where
  stream : Nat → Nat
  pos : Nat

/-- Consume one raw draw from the stream. -/
def nextNat (s : RandState) : Nat × RandState :=
  (s.stream s.pos, ⟨s.stream, s.pos + 1⟩)

/-- Model of `random.random()`: a rational in `[0, 1)` with 53-bit
resolution, as produced by CPython's `random()`. -/
def randomFloat (s : RandState) : ℚ × RandState :=
  let p := nextNat s
  (((p.1 % 2 ^ 53 : ℕ) : ℚ) / (2 ^ 53 : ℚ), p.2)

/-- Model of `random.randint(a, b)` (inclusive bounds, called in the
source only with `a ≤ b`). -/
def randint (a b : ℕ) (s : RandState) : ℕ × RandState :=
  let p := nextNat s
  (a + p.1 % (b - a + 1), p.2)

/-- Model of `random.choice` on a non-empty list of characters (the source
only calls it on non-empty lists; the default is never reached there). -/
def choice (l : List Char) (s : RandState) : Char × RandState :=
  let p := nextNat s
  (l.getD (p.1 % l.length) 'A', p.2)

/-! ## `experiment_9_2/generate_data.py` -/

/-- The nucleotide alphabet, `bases = ['A', 'T', 'G', 'C']`. -/
def bases : List Char := ['A', 'T', 'G', 'C']

/-- Python `generate_random_sequence(length)`: one `random.choice(bases)` per
position, in order. -/
def generate_random_sequence : ℕ → RandState → List Char × RandState
  | 0, s => ([], s)
  | n + 1, s =>
      let p := choice bases s
      let q := generate_random_sequence n p.2
      (p.1 :: q.1, q.2)

/-- Python `generate_kmers_from_sequence(sequence, k)`: the empty list when the
sequence is shorter than `k`, otherwise all windows `sequence[i:i+k]` for
`i` in `range(len(sequence) - k + 1)`. -/
def generate_kmers_from_sequence (sequence : List Char) (k : ℕ) : List (List Char) :=
  if sequence.length < k then []
  else (List.range (sequence.length - k + 1)).map (fun i => (sequence.drop i).take k)

/-- Body of the loop of `generate_transcript_sequences`: transcript `i`
gets a random length in `[min_length, max_length]` and a random sequence of
that length.  Transcript identifiers `transcript_{i:04d}` are modelled by
the index `i`. -/
def genTranscriptsAux (min_length max_length : ℕ) :
    ℕ → ℕ → RandState → List (ℕ × List Char) × RandState
  | _, 0, s => ([], s)
  | i, n + 1, s =>
      let pl := randint min_length max_length s
      let ps := generate_random_sequence pl.1 pl.2
      let q := genTranscriptsAux min_length max_length (i + 1) n ps.2
      ((i, ps.1) :: q.1, q.2)

/-- Python `generate_transcript_sequences(num_transcripts, min_length=500,
max_length=3000)`. -/
def generate_transcript_sequences (num_transcripts : ℕ)
    (min_length : ℕ := 500) (max_length : ℕ := 3000) (s : RandState) :
    List (ℕ × List Char) × RandState :=
  genTranscriptsAux min_length max_length 0 num_transcripts s

/-- One insertion step of the `kmer_to_transcripts` dictionary: if the
k-mer is already a key, append the transcript id to its list, otherwise
append a fresh entry.  The dictionary is insertion-ordered, modelled as an
association list. -/
def addKmer (m : List (List Char × List ℕ)) (kmer : List Char) (tid : ℕ) :
    List (List Char × List ℕ) :=
  if m.any (fun p => p.1 = kmer) then
    m.map (fun p => if p.1 = kmer then (p.1, p.2 ++ [tid]) else p)
  else m ++ [(kmer, [tid])]

/-- Inner loop of `generate_kmer_index`: insert every k-mer of one
transcript. -/
def addTranscriptKmers (tid : ℕ) :
    List (List Char × List ℕ) → List (List Char) → List (List Char × List ℕ)
  | m, [] => m
  | m, km :: rest => addTranscriptKmers tid (addKmer m km tid) rest

/-- Outer loop of `generate_kmer_index`, building `kmer_to_transcripts`. -/
def buildKmerMap (k : ℕ) :
    List (List Char × List ℕ) → List (ℕ × List Char) → List (List Char × List ℕ)
  | m, [] => m
  | m, (tid, seq) :: rest =>
      buildKmerMap k (addTranscriptKmers tid m (generate_kmers_from_sequence seq k)) rest

/-- Model of CPython's `list(set(xs))` on a list of transcript-id strings:
the order of iteration over a `set` of strings depends on the per-process
string-hash salt (`PYTHONHASHSEED`), which is *not* controlled by
`random.seed`.  The salt is modelled as a Boolean choosing between two
possible deduplicated orders; membership and distinctness are
salt-independent, the byte-level order is not. -/
def setList (salt : Bool) (l : List ℕ) : List ℕ :=
  if salt then l.dedup.reverse else l.dedup

/-- Python `generate_kmer_index(transcripts, k=31)`: build the insertion-ordered
k-mer dictionary, then emit one record per key with
`transcripts = list(set(transcript_list))`.  The `transcript_positions:
None` field is constant and omitted. -/
def generate_kmer_index (salt : Bool) (transcripts : List (ℕ × List Char))
    (k : ℕ := 31) : List (List Char × List ℕ) :=
  (buildKmerMap k [] transcripts).map (fun p => (p.1, setList salt p.2))

/-- Python `introduce_errors(sequence, error_rate)`: per position an independent
coin `random.random() < error_rate`; on success the base is replaced by
`random.choice([b for b in bases if b != original_base])`. -/
def introduce_errors : List Char → ℚ → RandState → List Char × RandState
  | [], _, s => ([], s)
  | c :: rest, error_rate, s =>
      let u := randomFloat s
      if u.1 < error_rate then
        let nb := choice (bases.filter (fun b => b ≠ c)) u.2
        let q := introduce_errors rest error_rate nb.2
        (nb.1 :: q.1, q.2)
      else
        let q := introduce_errors rest error_rate u.2
        (c :: q.1, q.2)

/-- Model of `random.normalvariate(mu, sigma)`: consumes one draw and
returns a deterministic rational; the exact Gaussian shape is irrelevant to
every claim, only determinism in the stream matters. -/
def normalvariate (mu sigma : ℚ) (s : RandState) : ℚ × RandState :=
  let p := randomFloat s
  (mu + sigma * (p.1 - 1 / 2), p.2)

/-- Model of `math.exp` on the values produced above: a strictly positive
computable rational stand-in `2 ^ ⌊x⌋` (positivity is the only property of
`exp` the scripts rely on). -/
def expModel (x : ℚ) : ℚ := (2 : ℚ) ^ (⌊x⌋ : ℤ)

/-- Python `generate_expression_profile(num_transcripts)`: per transcript a
log-normal expression value `exp(normalvariate(2, 1.5))`. -/
def genExpressionAux : ℕ → ℕ → RandState → List (ℕ × ℚ) × RandState
  | _, 0, s => ([], s)
  | i, n + 1, s =>
      let p := normalvariate 2 (3 / 2) s
      let q := genExpressionAux (i + 1) n p.2
      ((i, expModel p.1) :: q.1, q.2)

def generate_expression_profile (num_transcripts : ℕ) (s : RandState) :
    List (ℕ × ℚ) × RandState :=
  genExpressionAux 0 num_transcripts s

/-- Dictionary lookup `transcripts[transcript_id]` /
`transcript_id in transcripts`. -/
def dictFind (tid : ℕ) : List (ℕ × List Char) → Option (List Char)
  | [] => none
  | p :: l => if p.1 = tid then some p.2 else dictFind tid l

/-- Model of `int(total_reads * expr_fraction)`: truncation of the (non-negative)
allocation to an integer read count.  `range` of a negative value is empty,
so the effective read count of a negative allocation is `0`, which `toNat`
reproduces. -/
def allocOf (total_reads : ℕ) (frac : ℚ) : ℕ :=
  (⌊(total_reads : ℚ) * frac⌋).toNat

/-- Inner loop of `generate_weighted_reads`: draw `num_reads` windows of
length `read_length` from one transcript, each starting at
`random.randint(0, len(seq) - read_length)`, with errors injected when
`error_rate > 0`. -/
def readsFor (tseq : List Char) (read_length : ℕ) (error_rate : ℚ) :
    ℕ → RandState → List (List Char) × RandState
  | 0, s => ([], s)
  | n + 1, s =>
      let pstart := randint 0 (tseq.length - read_length) s
      let raw := (tseq.drop pstart.1).take read_length
      let pread := if 0 < error_rate then introduce_errors raw error_rate pstart.2
                   else (raw, pstart.2)
      let q := readsFor tseq read_length error_rate n pread.2
      (pread.1 :: q.1, q.2)

/-- Per-entry body of the outer loop of `generate_weighted_reads`:
`continue` when the id is absent from `transcripts` or the transcript is
shorter than the read length (no draw is consumed in either case). -/
def readsForEntry (transcripts : List (ℕ × List Char)) (read_length : ℕ)
    (error_rate : ℚ) (tid num_reads : ℕ) (s : RandState) :
    List (List Char) × RandState :=
  match dictFind tid transcripts with
  | none => ([], s)
  | some tseq =>
      if tseq.length < read_length then ([], s)
      else readsFor tseq read_length error_rate num_reads s

/-- Outer loop of `generate_weighted_reads` over the allocation list. -/
def readsLoop (transcripts : List (ℕ × List Char)) (read_length : ℕ)
    (error_rate : ℚ) : List (ℕ × ℕ) → RandState → List (List Char) × RandState
  | [], s => ([], s)
  | (tid, num_reads) :: rest, s =>
      let p := readsForEntry transcripts read_length error_rate tid num_reads s
      let q := readsLoop transcripts read_length error_rate rest p.2
      (p.1 ++ q.1, q.2)

/-- Swap two positions of a list (identity when either index is out of
range), the building block of `random.shuffle`. -/
def listSwap (l : List α) (i j : ℕ) : List α :=
  match l.get? i, l.get? j with
  | some a, some b => (l.set i b).set j a
  | _, _ => l

/-- Fisher–Yates loop of `random.shuffle`: for `i` from `len - 1` down to
`1`, swap position `i` with a drawn position `j ≤ i`. -/
def shuffleAux : List α → ℕ → RandState → List α × RandState
  | l, 0, s => (l, s)
  | l, i + 1, s =>
      let p := nextNat s
      shuffleAux (listSwap l (i + 1) (p.1 % (i + 2))) i p.2

/-- Model of `random.shuffle(reads)`. -/
def shuffle (l : List α) (s : RandState) : List α × RandState :=
  shuffleAux l (l.length - 1) s

/-- Python `generate_weighted_reads(transcripts, expression_profile, total_reads,
read_length=100, error_rate=0.01)`: normalize the expression profile,
truncate the per-transcript allocations, sample the reads and shuffle
them. -/
def generate_weighted_reads (transcripts : List (ℕ × List Char))
    (expression_profile : List (ℕ × ℚ)) (total_reads : ℕ)
    (read_length : ℕ := 100) (error_rate : ℚ := 1 / 100) (s : RandState) :
    List (List Char) × RandState :=
  let total_expression := (expression_profile.map (fun p => p.2)).sum
  let normalized_expression :=
    expression_profile.map (fun p => (p.1, p.2 / total_expression))
  let transcript_reads :=
    normalized_expression.map (fun p => (p.1, allocOf total_reads p.2))
  let q := readsLoop transcripts read_length error_rate transcript_reads s
  shuffle q.1 q.2

/-- One FASTQ record of `write_fastq`: id `read_{i:08d}` (modelled by the
index), the read, and a quality string of `'I'` repeated `len(read)`
times. -/
def fastqRecord (i : ℕ) (read : List Char) : ℕ × List Char × List Char :=
  (i, read, List.replicate read.length 'I')

/-- Python `write_fastq(reads, filename)`: the sequence of records written. -/
def write_fastq (reads : List (List Char)) : List (ℕ × List Char × List Char) :=
  (reads.enum.map (fun p => fastqRecord p.1 p.2))

/-- Command-line arguments of `generate_data.py`'s `main`. -/
structure GenArgs where
  num_transcripts : ℕ
  num_reads : ℕ
  read_length : ℕ
  kmer_length : ℕ
  error_rate : ℚ
  deriving DecidableEq

/-- The four files written by `main` of `generate_data.py`, as structured
data (`kmer_index.json`, `reads.fastq`, `transcripts.fasta`,
`true_expression.tsv`; the last is sorted by transcript id). -/
structure GenOutputs where
  kmerIndexFile : List (List Char × List ℕ)
  readsFile : List (ℕ × List Char × List Char)
  transcriptsFile : List (ℕ × List Char)
  trueExpressionFile : List (ℕ × ℚ)
  deriving DecidableEq

/-- Function `main` of `generate_data.py` for a given draw stream and string-hash
salt: generate transcripts, then the expression profile, then the k-mer
index, then the reads, consuming the single stream in that order, and
write the four output files. -/
def generateDataRun (args : GenArgs) (salt : Bool) (s : RandState) : GenOutputs :=
  let pt := generate_transcript_sequences args.num_transcripts 500 3000 s
  let pe := generate_expression_profile args.num_transcripts pt.2
  let kmer_index := generate_kmer_index salt pt.1 args.kmer_length
  let pr := generate_weighted_reads pt.1 pe.1 args.num_reads args.read_length
    args.error_rate pe.2
  { kmerIndexFile := kmer_index
    readsFile := write_fastq pr.1
    transcriptsFile := pt.1
    trueExpressionFile :=
      pe.1.mergeSort (fun a b => a.1 ≤ b.1) }

/-- Model of `random.seed(seed)`: the raw draw stream is some fixed
deterministic function of the integer seed (the Mersenne-Twister states
are modelled abstractly; only determinism in the seed matters). -/
def seedStream (seed : ℕ) : RandState :=
  ⟨fun i => (seed + i) % 2 ^ 32, 0⟩

/-- A full process run of `generate_data.py` with a given seed and a given
per-process string-hash salt. -/
def generateDataMain (args : GenArgs) (salt : Bool) (seed : ℕ) : GenOutputs :=
  generateDataRun args salt (seedStream seed)

/-! ## `experiment_9_4/generate_the_data.py` -/

/-- Model of `np.random.lognormal(mean, sigma)`:
`exp(normal(mean, sigma))`, built from the modelled normal draw; strictly
positive. -/
def lognormalDraw (mean sigma : ℚ) (s : RandState) : ℚ × RandState :=
  let p := normalvariate mean sigma s
  (expModel p.1, p.2)

/-- Model of `np.random.uniform(low, high)`: `low + (high - low) * u` for
one unit draw. -/
def uniformDraw (low high : ℚ) (s : RandState) : ℚ × RandState :=
  let p := randomFloat s
  (low + (high - low) * p.1, p.2)

/-- The differential-expression category of a gene. -/
inductive GeneCategory where
  | upregulated
  | downregulated
  | unchanged
  deriving DecidableEq

/-- The list `gene_categories`: `int(0.1 * n_genes)` upregulated, the same number
downregulated, the rest unchanged (the float truncation `int(0.1 * n)` is
modelled as the exact rational floor `n / 10`). -/
def gene_categories (n_genes : ℕ) : List GeneCategory :=
  List.replicate (n_genes / 10) .upregulated ++
    List.replicate (n_genes / 10) .downregulated ++
    List.replicate (n_genes - n_genes / 10 - n_genes / 10) .unchanged

/-- One row of the long-format count table of
`generate_normalized_counts` (gene ids `GENE_{i:05d}` modelled by the
1-based index). -/
structure CountRow where
  gene_id : ℕ
  sample_id : String
  count : ℚ
  deriving DecidableEq

/-- Generic state-threading map, the shape of the Python `for` loops that
append one generated row per element. -/
def mapState (f : α → RandState → β × RandState) :
    List α → RandState → List β × RandState
  | [], s => ([], s)
  | a :: l, s =>
      let p := f a s
      let q := mapState f l p.2
      (p.1 :: q.1, q.2)

/-- The `control_samples` / `treatment_samples` identifier lists. -/
def controlSamples (n : ℕ) : List String :=
  (List.range n).map (fun i => "Control_Rep" ++ toString (i + 1))

def treatmentSamples (n : ℕ) : List String :=
  (List.range n).map (fun i => "Treatment_Rep" ++ toString (i + 1))

/-- One control row: `count = max(0.1, base_expression * noise_factor)`
with `noise_factor = np.random.lognormal(0, 0.3)`. -/
def controlRow (gene : ℕ) (base : ℚ) (sample : String) (s : RandState) :
    CountRow × RandState :=
  let p := lognormalDraw 0 (3 / 10) s
  ({ gene_id := gene, sample_id := sample, count := max (1 / 10) (base * p.1) }, p.2)

/-- The fold-change draw of one treatment row, by category:
`uniform(2, 8)`, `uniform(0.125, 0.5)` or `uniform(0.8, 1.25)`. -/
def foldChangeDraw (category : GeneCategory) (s : RandState) : ℚ × RandState :=
  match category with
  | .upregulated => uniformDraw 2 8 s
  | .downregulated => uniformDraw (1 / 8) (1 / 2) s
  | .unchanged => uniformDraw (4 / 5) (5 / 4) s

/-- One treatment row: fold change by category, then the noise factor,
then `count = max(0.1, base * fold_change * noise)`. -/
def treatmentRow (gene : ℕ) (base : ℚ) (category : GeneCategory)
    (sample : String) (s : RandState) : CountRow × RandState :=
  let pf := foldChangeDraw category s
  let pn := lognormalDraw 0 (3 / 10) pf.2
  ({ gene_id := gene, sample_id := sample, count := max (1 / 10) (base * pf.1 * pn.1) },
    pn.2)

/-- The rows generated for one gene: the base expression draw
`np.random.lognormal(4, 1.5)`, then one row per control sample, then one
row per treatment sample. -/
def rowsForGene (n_samples_per_group : ℕ) (gene : ℕ)
    (category : GeneCategory) (s : RandState) : List CountRow × RandState :=
  let pb := lognormalDraw 4 (3 / 2) s
  let pc := mapState (controlRow gene pb.1) (controlSamples n_samples_per_group) pb.2
  let pt := mapState (treatmentRow gene pb.1 category)
    (treatmentSamples n_samples_per_group) pc.2
  (pc.1 ++ pt.1, pt.2)

/-- Python `generate_normalized_counts(n_genes, n_samples_per_group)`: the
long-format table, one block of `2 * n_samples_per_group` rows per gene in
order (the function reseeds `np.random.seed(42)` on entry; the state is
taken as a parameter, so every property below holds for the reseeded
stream in particular). -/
def generate_normalized_counts (n_genes n_samples_per_group : ℕ)
    (s : RandState) : List CountRow × RandState :=
  let p := mapState
    (fun i => rowsForGene n_samples_per_group (i + 1)
      ((gene_categories n_genes).getD i .unchanged))
    (List.range n_genes) s
  (p.1.flatten, p.2)

/-! ## `experiment_9_6/scripts/generate_sample_data.py` -/

/-- Model of `np.random.randint(0, n)` (half-open interval, as in
numpy). -/
def npRandintBelow (n : ℕ) (s : RandState) : ℕ × RandState :=
  let p := nextNat s
  (p.1 % n, p.2)

/-- Model of `np.random.exponential(scale)`: a non-negative rational
draw. -/
def exponentialDraw (scale : ℚ) (s : RandState) : ℚ × RandState :=
  let p := randomFloat s
  (scale * p.1, p.2)

/-- Model of `np.random.poisson(rate)`: a small natural draw (the exact
distribution is irrelevant to every claim). -/
def poissonDraw (s : RandState) : ℕ × RandState :=
  let p := nextNat s
  (p.1 % 7, p.2)

/-- One sparse count entry of the single-cell generator. -/
structure SCEntry where
  gene_idx : ℕ
  cell_idx : ℕ
  count : ℚ
  deriving DecidableEq

/-- One raw entry: `gene_idx = np.random.randint(0, n_genes)`,
`cell_idx = np.random.randint(0, n_cells)`,
`count = max(1, int(np.random.poisson(np.random.exponential(1.5)) + 1))`
stored as a float. -/
def rawEntry (n_genes n_cells : ℕ) (_i : ℕ) (s : RandState) :
    SCEntry × RandState :=
  let pg := npRandintBelow n_genes s
  let pc := npRandintBelow n_cells pg.2
  let pb := exponentialDraw (3 / 2) pc.2
  let pp := poissonDraw pb.2
  ({ gene_idx := pg.1, cell_idx := pc.1, count := (max 1 (pp.1 + 1) : ℕ) }, pp.2)

/-- The size `target_entries = int(n_cells * n_genes * 0.15)` (float truncation
modelled as the exact rational floor). -/
def targetEntries (n_cells n_genes : ℕ) : ℕ :=
  n_cells * n_genes * 15 / 100

/-- The raw entry list of `generate_simple_synthetic_data`, before
deduplication. -/
def scRawEntries (n_cells n_genes : ℕ) (s : RandState) :
    List SCEntry × RandState :=
  mapState (rawEntry n_genes n_cells)
    (List.range (targetEntries n_cells n_genes)) s

/-- One step of `groupby(['gene_idx', 'cell_idx'])['count'].max()`: fold
an entry into the association list keyed by `(gene_idx, cell_idx)`,
keeping the maximum count per key. -/
def insertMax (m : List ((ℕ × ℕ) × ℚ)) (key : ℕ × ℕ) (c : ℚ) :
    List ((ℕ × ℕ) × ℚ) :=
  if m.any (fun p => p.1 = key) then
    m.map (fun p => if p.1 = key then (p.1, max p.2 c) else p)
  else m ++ [(key, c)]

def groupMaxAux : List ((ℕ × ℕ) × ℚ) → List SCEntry → List ((ℕ × ℕ) × ℚ)
  | m, [] => m
  | m, e :: l => groupMaxAux (insertMax m (e.gene_idx, e.cell_idx) e.count) l

/-- The grouped maximum table of the raw entries. -/
def groupMax (l : List SCEntry) : List ((ℕ × ℕ) × ℚ) :=
  groupMaxAux [] l

/-- Lexicographic ordering on `(gene_idx, cell_idx)` keys, used both by
`groupby` (which sorts its keys) and by the final
`sort_values(['gene_idx', 'cell_idx'])`. -/
def keyLE (a b : ℕ × ℕ) : Bool :=
  decide (a.1 < b.1 ∨ (a.1 = b.1 ∧ a.2 ≤ b.2))

/-- The deduplicated table `df` of `generate_simple_synthetic_data`
(grouped by key with maximum count, keys sorted as `groupby` emits
them). -/
def scGrouped (n_cells n_genes : ℕ) (s : RandState) :
    List ((ℕ × ℕ) × ℚ) × RandState :=
  let p := scRawEntries n_cells n_genes s
  ((groupMax p.1).mergeSort (fun a b => keyLE a.1 b.1), p.2)

/-- The cell-type signature boost of one deduplicated row: cell type
`cell_idx % 5`, signature block `[cell_type * (n_genes / 5),
min((cell_type + 1) * (n_genes / 5), n_genes))`; a gene inside the block
gets its count multiplied by `np.random.uniform(2.0, 4.0)`. -/
def boostRow (n_genes : ℕ) (row : (ℕ × ℕ) × ℚ) (s : RandState) :
    SCEntry × RandState :=
  let cell_type := row.1.2 % 5
  let type_signature_size := n_genes / 5
  let signature_start := cell_type * type_signature_size
  let signature_end := min ((cell_type + 1) * type_signature_size) n_genes
  if signature_start ≤ row.1.1 ∧ row.1.1 < signature_end then
    let p := uniformDraw 2 4 s
    ({ gene_idx := row.1.1, cell_idx := row.1.2, count := row.2 * p.1 }, p.2)
  else
    ({ gene_idx := row.1.1, cell_idx := row.1.2, count := row.2 }, s)

/-- Python `generate_simple_synthetic_data(n_cells, n_genes)`: raw entries,
deduplication by maximum, per-row signature boost, final sort by
`(gene_idx, cell_idx)`. -/
def generate_simple_synthetic_data (n_cells n_genes : ℕ) (s : RandState) :
    List SCEntry × RandState :=
  let pg := scGrouped n_cells n_genes s
  let pb := mapState (boostRow n_genes) pg.1 pg.2
  (pb.1.mergeSort (fun a b => keyLE (a.gene_idx, a.cell_idx) (b.gene_idx, b.cell_idx)),
    pb.2)

/-! ## `experiment_9_6/scripts/validate_input.py` -/

/-- The parsed tab-separated table: the column names of the header and one
valuation per row (a pandas data frame restricted to numeric values, which
is all the validator touches). -/
structure DataFrame where
  cols : List String
  rows : List (String → ℚ)

/-- The validator's input: either the parse failure of `pd.read_csv`
(carrying the exception text) or the parsed frame. -/
inductive VInput where
  | parseError (msg : String)
  | parsed (df : DataFrame)

/-- The list `required_cols = ['gene_idx', 'cell_idx', 'count']`. -/
def required_cols : List String := ["gene_idx", "cell_idx", "count"]

/-- The content of `validation_report.txt`: either the error text or the
five summary statistics (the `{:,}` thousands formatting of the success
report is abstracted to the raw values). -/
inductive ReportFile where
  | errText (s : String)
  | summary (original nonzero uniqueGenes uniqueCells : ℕ) (totalCounts : ℚ)

/-- The observable outcome of one run of `validate_input.py`: the process
exit code, whether the error path called `os.makedirs(output_dir)`,
the validated matrix written (if any) and the report file content. -/
structure VOutcome where
  exitCode : ℕ
  dirEnsuredOnError : Bool
  matrixWritten : Option DataFrame
  report : ReportFile

/-- Pandas `nunique()` of a column: the number of distinct values. -/
def nunique (l : List ℚ) : ℕ := l.dedup.length

/-- The `except` branch of `main`: print, `os.makedirs(output_dir,
exist_ok=True)`, write the `ERROR:`-prefixed message to the report, `sys.exit(1)`. -/
def errOutcome (msg : String) : VOutcome :=
  { exitCode := 1
    dirEnsuredOnError := true
    matrixWritten := none
    report := .errText ("ERROR: " ++ msg) }

/-- Function `main` of `validate_input.py` on a parsed (or unparseable) input:
check the required columns, raise on any missing one, otherwise filter
`df['count'] > 0`, write the filtered matrix and the summary report, and
finish with exit code 0. -/
def validateMain (input : VInput) : VOutcome :=
  match input with
  | .parseError msg => errOutcome msg
  | .parsed df =>
      let missing_cols := required_cols.filter (fun c => ¬ c ∈ df.cols)
      if missing_cols ≠ [] then
        errOutcome ("Missing required columns: " ++ toString missing_cols)
      else
        let df_filtered : DataFrame :=
          ⟨df.cols, df.rows.filter (fun r => 0 < r "count")⟩
        { exitCode := 0
          dirEnsuredOnError := false
          matrixWritten := some df_filtered
          report := .summary df.rows.length df_filtered.rows.length
            (nunique (df_filtered.rows.map (fun r => r "gene_idx")))
            (nunique (df_filtered.rows.map (fun r => r "cell_idx")))
            ((df_filtered.rows.map (fun r => r "count")).sum) }

/-- The error condition of claim C1: the table cannot be parsed, or a
required column is missing. -/
def missingOrUnparseable : VInput → Prop
  | .parseError _ => True
  | .parsed df => ∃ c ∈ required_cols, ¬ c ∈ df.cols

/-- Predicate: `t` is recorded under key `km` somewhere in the k-mer association
list. -/
def memVal (m : List (List Char × List ℕ)) (km : List Char) (t : ℕ) : Prop :=
  ∃ p ∈ m, p.1 = km ∧ t ∈ p.2

/-- The `(gene_idx, cell_idx)` grouping key of a sparse count entry. -/
def scKey (e : SCEntry) : ℕ × ℕ := (e.gene_idx, e.cell_idx)

/-! ## Shared helper lemmas -/

theorem mapState_length (f : α → RandState → β × RandState) :
    ∀ (l : List α) (s : RandState), (mapState f l s).1.length = l.length := by
  intro l
  induction l with
  | nil => intro s; rfl
  | cons a t ih => intro s; simp [mapState, ih]

theorem mapState_forall {P : β → Prop} (f : α → RandState → β × RandState)
    (hf : ∀ a s, P (f a s).1) :
    ∀ (l : List α) (s : RandState) (b : β), b ∈ (mapState f l s).1 → P b := by
  intro l
  induction l with
  | nil => intro s b hb; simp [mapState] at hb
  | cons a t ih =>
      intro s b hb
      simp only [mapState, List.mem_cons] at hb
      rcases hb with hb | hb
      · exact hb ▸ hf a s
      · exact ih _ b hb

theorem listSwap_length (l : List α) (i j : ℕ) : (listSwap l i j).length = l.length := by
  unfold listSwap
  rcases hi : l.get? i with _ | a <;> rcases hj : l.get? j with _ | b <;> simp

theorem listSwap_mem (l : List α) (i j : ℕ) (x : α) (hx : x ∈ listSwap l i j) :
    x ∈ l := by
  unfold listSwap at hx
  rcases hi : l.get? i with _ | a <;> rw [hi] at hx <;>
    rcases hj : l.get? j with _ | b <;> rw [hj] at hx <;> try exact hx
  rcases List.mem_or_eq_of_mem_set hx with hx' | hx'
  · rcases List.mem_or_eq_of_mem_set hx' with hx'' | hx''
    · exact hx''
    · exact hx'' ▸ List.get?_mem hj
  · exact hx' ▸ List.get?_mem hi

theorem shuffleAux_length (l : List α) (i : ℕ) (s : RandState) :
    (shuffleAux l i s).1.length = l.length := by
  induction i generalizing l s with
  | zero => rfl
  | succ n ih => simp [shuffleAux, ih, listSwap_length]

theorem shuffleAux_mem (l : List α) (i : ℕ) (s : RandState) (x : α)
    (hx : x ∈ (shuffleAux l i s).1) : x ∈ l := by
  induction i generalizing l s with
  | zero => exact hx
  | succ n ih => exact listSwap_mem _ _ _ _ (ih _ _ hx)

theorem shuffle_length (l : List α) (s : RandState) :
    (shuffle l s).1.length = l.length := shuffleAux_length l (l.length - 1) s

theorem shuffle_mem (l : List α) (s : RandState) (x : α)
    (hx : x ∈ (shuffle l s).1) : x ∈ l := shuffleAux_mem l (l.length - 1) s x hx

/-! ## C1 / C2: the input validator -/

/-- C1: on an unparseable table or one missing a required column, the
validator exits with code 1, ensures the output directory exists, writes a
report starting with `ERROR:`, and writes no validated matrix. -/
theorem C1_validator_error_path (input : VInput) (h : missingOrUnparseable input) :
    (validateMain input).exitCode = 1 ∧
    (validateMain input).dirEnsuredOnError = true ∧
    (validateMain input).matrixWritten = none ∧
    ∃ rest, (validateMain input).report = .errText ("ERROR:" ++ rest) := by
  cases input with
  | parseError msg =>
      exact ⟨rfl, rfl, rfl, " " ++ msg, rfl⟩
  | parsed df =>
      obtain ⟨c, hc, hcn⟩ := h
      have hm : (required_cols.filter (fun c => ¬ c ∈ df.cols)) ≠ [] := by
        refine List.ne_nil_of_mem (a := c) ?_
        simp only [List.mem_filter, decide_eq_true_eq]
        exact ⟨hc, hcn⟩
      simp only [validateMain, if_pos hm]
      exact ⟨rfl, rfl, rfl,
        " " ++ ("Missing required columns: " ++
          toString (required_cols.filter (fun c => ¬ c ∈ df.cols))), rfl⟩

/-- C1 witness: a parsed table with columns `gene_idx`, `cell_idx` only
(missing `count`). -/
theorem C1_witness :
    missingOrUnparseable (.parsed ⟨["gene_idx", "cell_idx"], []⟩) ∧
    ((validateMain (.parsed ⟨["gene_idx", "cell_idx"], []⟩)).exitCode = 1 ∧
      (validateMain (.parsed ⟨["gene_idx", "cell_idx"], []⟩)).dirEnsuredOnError = true ∧
      (validateMain (.parsed ⟨["gene_idx", "cell_idx"], []⟩)).matrixWritten = none ∧
      ∃ rest, (validateMain (.parsed ⟨["gene_idx", "cell_idx"], []⟩)).report =
        .errText ("ERROR:" ++ rest)) :=
  ⟨⟨"count", by decide, by decide⟩,
    C1_validator_error_path _ ⟨"count", by decide, by decide⟩⟩

/-- C2: on a well-formed table, the validator writes a filtered matrix
whose row count is exactly the number of rows with strictly positive
count, and a summary report carrying the original row count, the filtered
row count, the numbers of distinct gene and cell indices, and the sum of
the remaining counts. -/
theorem C2_validator_success (df : DataFrame)
    (h : ∀ c ∈ required_cols, c ∈ df.cols) :
    (validateMain (.parsed df)).exitCode = 0 ∧
    (∃ m, (validateMain (.parsed df)).matrixWritten = some m ∧
      m.rows.length = (df.rows.filter (fun r => 0 < r "count")).length) ∧
    (validateMain (.parsed df)).report = .summary
      df.rows.length
      (df.rows.filter (fun r => 0 < r "count")).length
      (((df.rows.filter (fun r => 0 < r "count")).map (fun r => r "gene_idx")).toFinset.card)
      (((df.rows.filter (fun r => 0 < r "count")).map (fun r => r "cell_idx")).toFinset.card)
      (((df.rows.filter (fun r => 0 < r "count")).map (fun r => r "count")).sum) := by
  have hm : (required_cols.filter (fun c => ¬ c ∈ df.cols)) = [] := by
    rw [List.filter_eq_nil_iff]
    intro c hc
    simp only [decide_eq_true_eq, Decidable.not_not]
    exact h c hc
  simp only [validateMain, hm, ne_eq, not_true_eq_false, if_false, reduceIte]
  exact ⟨by trivial, ⟨_, by trivial, by trivial⟩, by
    simp only [nunique, List.card_toFinset]⟩

/-- C2 witness: a two-row table over exactly the required columns, one row
with positive count and one with zero count. -/
theorem C2_witness :
    (∀ c ∈ required_cols, c ∈ required_cols) ∧
    ((validateMain (.parsed ⟨required_cols, [fun _ => 2, fun _ => 0]⟩)).exitCode = 0 ∧
      (∃ m, (validateMain (.parsed ⟨required_cols, [fun _ => 2, fun _ => 0]⟩)).matrixWritten
          = some m ∧
        m.rows.length =
          (([fun _ => 2, fun _ => (0 : ℚ)] : List (String → ℚ)).filter
            (fun r => 0 < r "count")).length) ∧
      (validateMain (.parsed ⟨required_cols, [fun _ => 2, fun _ => 0]⟩)).report = .summary
        ([fun _ => 2, fun _ => (0 : ℚ)] : List (String → ℚ)).length
        (([fun _ => 2, fun _ => (0 : ℚ)] : List (String → ℚ)).filter
          (fun r => 0 < r "count")).length
        (((([fun _ => 2, fun _ => (0 : ℚ)] : List (String → ℚ)).filter
          (fun r => 0 < r "count")).map (fun r => r "gene_idx")).toFinset.card)
        (((([fun _ => 2, fun _ => (0 : ℚ)] : List (String → ℚ)).filter
          (fun r => 0 < r "count")).map (fun r => r "cell_idx")).toFinset.card)
        (((([fun _ => 2, fun _ => (0 : ℚ)] : List (String → ℚ)).filter
          (fun r => 0 < r "count")).map (fun r => r "count")).sum)) :=
  ⟨fun c hc => hc, C2_validator_success ⟨required_cols, [fun _ => 2, fun _ => 0]⟩
    (fun c hc => hc)⟩

/-! ## C8: skipped transcripts in the weighted read generator -/

/-- C8: a transcript shorter than the read length contributes no reads
(and consumes no randomness), and a transcript whose integer allocation is
zero likewise contributes no reads; both cases return normally. -/
theorem C8_skipped_transcripts (transcripts : List (ℕ × List Char))
    (read_length : ℕ) (error_rate : ℚ) (tid num_reads : ℕ) (s : RandState) :
    (∀ tseq, dictFind tid transcripts = some tseq → tseq.length < read_length →
      readsForEntry transcripts read_length error_rate tid num_reads s = ([], s)) ∧
    (num_reads = 0 →
      readsForEntry transcripts read_length error_rate tid num_reads s = ([], s)) := by
  constructor
  · intro tseq hfind hlen
    unfold readsForEntry
    rw [hfind]
    simp [hlen]
  · intro h0
    subst h0
    unfold readsForEntry
    rcases hfind : dictFind tid transcripts with _ | tseq
    · rfl
    · by_cases hlen : tseq.length < read_length <;> simp [hlen, readsFor]

/-- C8 witness: a single one-base transcript with read length 2 (short
case), and a zero allocation for an absent id (zero case). -/
theorem C8_witness :
    readsForEntry [(0, ['A'])] 2 0 0 5 ⟨fun _ => 0, 0⟩ = ([], ⟨fun _ => 0, 0⟩) ∧
    readsForEntry [(0, ['A'])] 2 0 0 0 ⟨fun _ => 0, 0⟩ = ([], ⟨fun _ => 0, 0⟩) :=
  ⟨(C8_skipped_transcripts [(0, ['A'])] 2 0 0 5 ⟨fun _ => 0, 0⟩).1 ['A'] rfl (by decide),
    (C8_skipped_transcripts [(0, ['A'])] 2 0 0 0 ⟨fun _ => 0, 0⟩).2 rfl⟩

/-! ## C9: pointwise behaviour of the error injection -/

theorem basesFilter_ne_nil (c : Char) : bases.filter (fun b => b ≠ c) ≠ [] := by
  by_cases hA : c = 'A'
  · subst hA; decide
  · refine List.ne_nil_of_mem (a := 'A') ?_
    rw [List.mem_filter]
    refine ⟨by decide, ?_⟩
    simpa using fun h => hA h.symm

theorem getD_mod_mem (l : List Char) (n : ℕ) (d : Char) (hne : l ≠ []) :
    l.getD (n % l.length) d ∈ l := by
  have hlen : 0 < l.length := List.length_pos.mpr hne
  have hmod : n % l.length < l.length := Nat.mod_lt _ hlen
  rw [List.getD_eq_getElem l d hmod]
  exact List.getElem_mem hmod

theorem choice_mem (l : List Char) (s : RandState) (hne : l ≠ []) :
    (choice l s).1 ∈ l :=
  getD_mod_mem l (nextNat s).1 'A' hne

/-- C9: for a sequence over `{A,T,G,C}`, the error-injected string agrees
with the input position by position, except that a mutated position holds
a base different from the original one; moreover, at every processing
step (every position is the head of one recursive call), whenever the
per-position coin `random.random() < error_rate` fires, the emitted base
is a member of `bases` strictly different from the original — the choice
from the filtered list never reproduces the original base — and whenever
the coin does not fire the original base is emitted unchanged. -/
theorem C9_error_injection_pointwise (sequence : List Char) (error_rate : ℚ)
    (s : RandState) (h : ∀ c ∈ sequence, c ∈ bases) :
    List.Forall₂ (fun a b => b = a ∨ (b ∈ bases ∧ b ≠ a)) sequence
      (introduce_errors sequence error_rate s).1 ∧
    ∀ (c : Char) (rest : List Char) (s' : RandState), c ∈ bases →
      ((randomFloat s').1 < error_rate →
        ∃ b, b ∈ bases ∧ b ≠ c ∧
          (introduce_errors (c :: rest) error_rate s').1 =
            b :: (introduce_errors rest error_rate
              (choice (bases.filter (fun b => b ≠ c)) (randomFloat s').2).2).1) ∧
      (¬ (randomFloat s').1 < error_rate →
        (introduce_errors (c :: rest) error_rate s').1 =
          c :: (introduce_errors rest error_rate (randomFloat s').2).1) := by
  constructor
  · induction sequence generalizing s with
    | nil => simp [introduce_errors]
    | cons c rest ih =>
        have hrest : ∀ x ∈ rest, x ∈ bases := fun x hx => h x (List.mem_cons_of_mem _ hx)
        simp only [introduce_errors]
        by_cases hco : (randomFloat s).1 < error_rate
        · simp only [hco, if_true, reduceIte]
          refine List.Forall₂.cons ?_ (ih _ hrest)
          have hmem := choice_mem (bases.filter (fun b => b ≠ c)) (randomFloat s).2
            (basesFilter_ne_nil c)
          rw [List.mem_filter] at hmem
          exact Or.inr ⟨hmem.1, by simpa using hmem.2⟩
        · simp only [hco, if_false, reduceIte]
          exact List.Forall₂.cons (Or.inl rfl) (ih _ hrest)
  · intro c rest s' _hc
    constructor
    · intro hco
      have hmem := choice_mem (bases.filter (fun b => b ≠ c)) (randomFloat s').2
        (basesFilter_ne_nil c)
      rw [List.mem_filter] at hmem
      refine ⟨(choice (bases.filter (fun b => b ≠ c)) (randomFloat s').2).1,
        hmem.1, by simpa using hmem.2, ?_⟩
      simp only [introduce_errors, hco, if_true, reduceIte]
    · intro hco
      simp only [introduce_errors, hco, if_false, reduceIte]

/-- C9 witness: a one-base sequence with error rate 1 and the zero
stream; the coin fires and the injected base differs from the original
`'A'`. -/
theorem C9_witness :
    (∀ c ∈ ['A'], c ∈ bases) ∧
    List.Forall₂ (fun a b => b = a ∨ (b ∈ bases ∧ b ≠ a)) ['A']
      (introduce_errors ['A'] 1 ⟨fun _ => 0, 0⟩).1 ∧
    (randomFloat ⟨fun _ => 0, 0⟩).1 < 1 ∧
    ∃ b, b ∈ bases ∧ b ≠ 'A' ∧
      (introduce_errors ['A'] 1 ⟨fun _ => 0, 0⟩).1 =
        b :: (introduce_errors [] 1
          (choice (bases.filter (fun b => b ≠ 'A'))
            (randomFloat ⟨fun _ => 0, 0⟩).2).2).1 :=
  ⟨by decide,
    (C9_error_injection_pointwise ['A'] 1 ⟨fun _ => 0, 0⟩ (by decide)).1,
    by norm_num [randomFloat, nextNat],
    ((C9_error_injection_pointwise ['A'] 1 ⟨fun _ => 0, 0⟩ (by decide)).2
      'A' [] ⟨fun _ => 0, 0⟩ (by decide)).1 (by norm_num [randomFloat, nextNat])⟩

/-! ## C5: every generated read has the configured length -/

theorem introduce_errors_length (l : List Char) (r : ℚ) :
    ∀ s : RandState, (introduce_errors l r s).1.length = l.length := by
  induction l with
  | nil => intro s; rfl
  | cons c rest ih =>
      intro s
      simp only [introduce_errors]
      by_cases hco : (randomFloat s).1 < r <;>
        simp [hco, ih]

theorem readsFor_mem_length (tseq : List Char) (read_length : ℕ) (error_rate : ℚ)
    (hlen : read_length ≤ tseq.length) :
    ∀ (n : ℕ) (s : RandState) (read : List Char),
      read ∈ (readsFor tseq read_length error_rate n s).1 → read.length = read_length := by
  intro n
  induction n with
  | zero => intro s read hread; simp [readsFor] at hread
  | succ m ih =>
      intro s read hread
      simp only [readsFor, List.mem_cons] at hread
      rcases hread with hread | hread
      · subst hread
        have hstart : (randint 0 (tseq.length - read_length) s).1 ≤
            tseq.length - read_length := by
          simp only [randint, nextNat]
          have := Nat.mod_lt ((s.stream s.pos))
            (y := tseq.length - read_length - 0 + 1) (by omega)
          omega
        have hraw : ((tseq.drop (randint 0 (tseq.length - read_length) s).1).take
            read_length).length = read_length := by
          rw [List.length_take, List.length_drop]
          omega
        by_cases her : 0 < error_rate
        · simp only [her, if_true, reduceIte]
          rw [introduce_errors_length, hraw]
        · simp only [her, if_false, reduceIte]
          exact hraw
      · exact ih _ read hread

theorem readsForEntry_mem_length (transcripts : List (ℕ × List Char))
    (read_length : ℕ) (error_rate : ℚ) (tid num_reads : ℕ) (s : RandState)
    (read : List Char)
    (hread : read ∈ (readsForEntry transcripts read_length error_rate tid num_reads s).1) :
    read.length = read_length := by
  unfold readsForEntry at hread
  rcases hfind : dictFind tid transcripts with _ | tseq <;> rw [hfind] at hread <;>
    dsimp only at hread
  · simp at hread
  · by_cases hlen : tseq.length < read_length
    · rw [if_pos hlen] at hread; simp at hread
    · rw [if_neg hlen] at hread
      exact readsFor_mem_length tseq read_length error_rate (Nat.le_of_not_lt hlen)
        num_reads s read hread

theorem readsLoop_mem_length (transcripts : List (ℕ × List Char))
    (read_length : ℕ) (error_rate : ℚ) :
    ∀ (allocs : List (ℕ × ℕ)) (s : RandState) (read : List Char),
      read ∈ (readsLoop transcripts read_length error_rate allocs s).1 →
      read.length = read_length := by
  intro allocs
  induction allocs with
  | nil => intro s read hread; simp [readsLoop] at hread
  | cons a rest ih =>
      intro s read hread
      simp only [readsLoop, List.mem_append] at hread
      rcases hread with hread | hread
      · exact readsForEntry_mem_length transcripts read_length error_rate a.1 a.2 s
          read hread
      · exact ih _ read hread

/-- C5: every read produced by the weighted read generator has length
exactly `read_length`, for every transcript set, expression profile, total
read count, read length, error rate and draw stream. -/
theorem C5_read_length (transcripts : List (ℕ × List Char))
    (expression_profile : List (ℕ × ℚ)) (total_reads read_length : ℕ)
    (error_rate : ℚ) (s : RandState) :
    ∀ read ∈ (generate_weighted_reads transcripts expression_profile total_reads
      read_length error_rate s).1, read.length = read_length := by
  intro read hread
  simp only [generate_weighted_reads] at hread
  exact readsLoop_mem_length transcripts read_length error_rate _ _ read
    (shuffle_mem _ _ _ hread)

/-- C5 witness: one transcript `AA`, one read of length 2 requested. -/
theorem C5_witness :
    ['A', 'A'] ∈ (generate_weighted_reads [(0, ['A', 'A'])] [(0, 1)] 1 2 0
      ⟨fun _ => 0, 0⟩).1 ∧
    (['A', 'A'] : List Char).length = 2 := by
  have heq : (generate_weighted_reads [(0, ['A', 'A'])] [(0, 1)] 1 2 0
      ⟨fun _ => 0, 0⟩).1 = [['A', 'A']] := by
    norm_num [generate_weighted_reads, readsLoop, readsForEntry, readsFor, dictFind,
      allocOf, randint, nextNat, shuffle, shuffleAux, introduce_errors, randomFloat,
      choice, listSwap]
  have hmem : ['A', 'A'] ∈ (generate_weighted_reads [(0, ['A', 'A'])] [(0, 1)] 1 2 0
      ⟨fun _ => 0, 0⟩).1 := by
    rw [heq]; exact List.mem_singleton.mpr rfl
  exact ⟨hmem, C5_read_length [(0, ['A', 'A'])] [(0, 1)] 1 2 0 ⟨fun _ => 0, 0⟩
    ['A', 'A'] hmem⟩

/-! ## C10: the weighted read generator emits at most `total_reads` reads -/

theorem readsFor_length (tseq : List Char) (read_length : ℕ) (error_rate : ℚ) :
    ∀ (n : ℕ) (s : RandState),
      (readsFor tseq read_length error_rate n s).1.length = n := by
  intro n
  induction n with
  | zero => intro s; rfl
  | succ m ih => intro s; simp [readsFor, ih]

theorem readsForEntry_length_le (transcripts : List (ℕ × List Char))
    (read_length : ℕ) (error_rate : ℚ) (tid num_reads : ℕ) (s : RandState) :
    (readsForEntry transcripts read_length error_rate tid num_reads s).1.length ≤
      num_reads := by
  unfold readsForEntry
  rcases dictFind tid transcripts with _ | tseq
  · exact Nat.zero_le _
  · dsimp only
    by_cases hlen : tseq.length < read_length
    · rw [if_pos hlen]; exact Nat.zero_le _
    · rw [if_neg hlen, readsFor_length]

theorem readsLoop_length_le (transcripts : List (ℕ × List Char))
    (read_length : ℕ) (error_rate : ℚ) :
    ∀ (allocs : List (ℕ × ℕ)) (s : RandState),
      (readsLoop transcripts read_length error_rate allocs s).1.length ≤
        (allocs.map Prod.snd).sum := by
  intro allocs
  induction allocs with
  | nil => intro s; exact Nat.le_refl 0
  | cons a rest ih =>
      intro s
      simp only [readsLoop, List.length_append, List.map_cons, List.sum_cons]
      exact Nat.add_le_add (readsForEntry_length_le _ _ _ _ _ _) (ih _)

theorem sum_floor_le (l : List ℚ) : (l.map (fun q => ⌊q⌋)).sum ≤ ⌊l.sum⌋ := by
  induction l with
  | nil => simp
  | cons a rest ih =>
      simp only [List.map_cons, List.sum_cons]
      have h1 : ⌊a⌋ + (rest.map (fun q => ⌊q⌋)).sum ≤ ⌊a⌋ + ⌊rest.sum⌋ :=
        add_le_add_left ih _
      refine h1.trans (Int.le_floor.mpr ?_)
      push_cast
      exact add_le_add (Int.floor_le a) (Int.floor_le rest.sum)

theorem sum_allocOf_le (N : ℕ) (vals : List ℚ) (hpos : ∀ v ∈ vals, 0 < v) :
    (vals.map (fun v => allocOf N (v / vals.sum))).sum ≤ N := by
  rcases hnil : vals with _ | ⟨v0, rest⟩
  · exact Nat.zero_le N
  rw [← hnil]
  have hne : vals ≠ [] := by rw [hnil]; exact List.cons_ne_nil v0 rest
  have hTpos : 0 < vals.sum := List.sum_pos vals hpos hne
  have hcast : ((vals.map (fun v => allocOf N (v / vals.sum))).sum : ℤ) ≤ (N : ℤ) := by
    rw [Nat.cast_list_sum, List.map_map]
    have hpt : vals.map (Nat.cast ∘ fun v => allocOf N (v / vals.sum)) =
        vals.map (fun v => ⌊(N : ℚ) * (v / vals.sum)⌋) := by
      refine List.map_congr_left ?_
      intro v hv
      show ((allocOf N (v / vals.sum) : ℕ) : ℤ) = _
      unfold allocOf
      refine Int.toNat_of_nonneg (Int.le_floor.mpr ?_)
      push_cast
      exact mul_nonneg (Nat.cast_nonneg N)
        (div_nonneg (hpos v hv).le hTpos.le)
    rw [hpt]
    have h2 : vals.map (fun v => ⌊(N : ℚ) * (v / vals.sum)⌋) =
        (vals.map (fun v => (N : ℚ) * (v / vals.sum))).map (fun q => ⌊q⌋) := by
      rw [List.map_map]; rfl
    rw [h2]
    refine (sum_floor_le _).trans ?_
    have h3 : (vals.map (fun v => (N : ℚ) * (v / vals.sum))).sum =
        (N : ℚ) * (vals.sum / vals.sum) := by
      rw [List.sum_map_mul_left]
      congr 1
      simp only [div_eq_mul_inv]
      rw [List.sum_map_mul_right, List.map_id']
    rw [h3, div_self hTpos.ne', mul_one, Int.floor_natCast]
  exact_mod_cast hcast

/-- C10: for every transcript set, positive expression profile, requested
total read count and draw stream, the weighted read generator returns at
most `total_reads` reads. -/
theorem C10_total_reads_bounded (transcripts : List (ℕ × List Char))
    (expression_profile : List (ℕ × ℚ)) (total_reads read_length : ℕ)
    (error_rate : ℚ) (s : RandState)
    (h : ∀ p ∈ expression_profile, 0 < p.2) :
    (generate_weighted_reads transcripts expression_profile total_reads
      read_length error_rate s).1.length ≤ total_reads := by
  simp only [generate_weighted_reads]
  rw [shuffle_length]
  refine (readsLoop_length_le _ _ _ _ _).trans ?_
  have hmap : ((expression_profile.map
        (fun p => (p.1, p.2 / (expression_profile.map (fun p => p.2)).sum))).map
          (fun p => (p.1, allocOf total_reads p.2))).map Prod.snd =
      (expression_profile.map Prod.snd).map
        (fun v => allocOf total_reads (v / (expression_profile.map Prod.snd).sum)) := by
    simp only [List.map_map]
    rfl
  rw [hmap]
  refine sum_allocOf_le total_reads (expression_profile.map Prod.snd) ?_
  intro v hv
  obtain ⟨p, hp, rfl⟩ := List.mem_map.mp hv
  exact h p hp

/-- C10 witness: one transcript, profile value 1, three requested reads. -/
theorem C10_witness :
    (∀ p ∈ [((0 : ℕ), (1 : ℚ))], 0 < p.2) ∧
    (generate_weighted_reads [(0, ['A', 'A'])] [(0, 1)] 3 2 0
      ⟨fun _ => 0, 0⟩).1.length ≤ 3 :=
  ⟨by decide, C10_total_reads_bounded [(0, ['A', 'A'])] [(0, 1)] 3 2 0
    ⟨fun _ => 0, 0⟩ (by decide)⟩

/-! ## C6: dimensions and count floor of the DE count generator -/

theorem getD_mem_of_lt (l : List α) (n : ℕ) (d : α) (h : n < l.length) :
    l.getD n d ∈ l := by
  rw [List.getD_eq_getElem l d h]
  exact List.getElem_mem h

theorem controlSamples_length (n : ℕ) : (controlSamples n).length = n := by
  simp [controlSamples]

theorem treatmentSamples_length (n : ℕ) : (treatmentSamples n).length = n := by
  simp [treatmentSamples]

theorem rowsForGene_length (m gene : ℕ) (category : GeneCategory) (s : RandState) :
    (rowsForGene m gene category s).1.length = 2 * m := by
  simp only [rowsForGene, List.length_append]
  rw [mapState_length, mapState_length, controlSamples_length, treatmentSamples_length]
  omega

theorem controlRow_count_floor (gene : ℕ) (base : ℚ) (sample : String)
    (s : RandState) : 1 / 10 ≤ (controlRow gene base sample s).1.count :=
  le_max_left _ _

theorem treatmentRow_count_floor (gene : ℕ) (base : ℚ) (category : GeneCategory)
    (sample : String) (s : RandState) :
    1 / 10 ≤ (treatmentRow gene base category sample s).1.count :=
  le_max_left _ _

theorem rowsForGene_count_floor (m gene : ℕ) (category : GeneCategory)
    (s : RandState) (e : CountRow) (he : e ∈ (rowsForGene m gene category s).1) :
    1 / 10 ≤ e.count := by
  rw [rowsForGene, List.mem_append] at he
  rcases he with he | he
  · exact mapState_forall (P := fun r => 1 / 10 ≤ r.count)
      (controlRow gene _) (fun a s => controlRow_count_floor _ _ _ _) _ _ e he
  · exact mapState_forall (P := fun r => 1 / 10 ≤ r.count)
      (treatmentRow gene _ category) (fun a s => treatmentRow_count_floor _ _ _ _ _)
      _ _ e he

theorem mapState_flatten_length (f : α → RandState → List β × RandState) (L : ℕ)
    (hf : ∀ a s, (f a s).1.length = L) :
    ∀ (l : List α) (s : RandState), ((mapState f l s).1.flatten).length = l.length * L := by
  intro l
  induction l with
  | nil => intro s; simp [mapState]
  | cons a t ih =>
      intro s
      simp only [mapState, List.flatten_cons, List.length_append, List.length_cons]
      rw [hf, ih]
      ring

/-- C6: the DE count generator emits exactly
`n_genes * (2 * n_samples_per_group)` rows, and every count is at least
the floor `0.1`. -/
theorem C6_dims_and_floor (n_genes n_samples_per_group : ℕ) (s : RandState) :
    (generate_normalized_counts n_genes n_samples_per_group s).1.length =
      n_genes * (2 * n_samples_per_group) ∧
    ∀ e ∈ (generate_normalized_counts n_genes n_samples_per_group s).1,
      1 / 10 ≤ e.count := by
  constructor
  · simp only [generate_normalized_counts]
    rw [mapState_flatten_length _ (2 * n_samples_per_group)
      (fun a s => rowsForGene_length _ _ _ _), List.length_range]
  · intro e he
    simp only [generate_normalized_counts] at he
    rw [List.mem_flatten] at he
    obtain ⟨blk, hblk, he⟩ := he
    exact mapState_forall
      (P := fun blk => ∀ r ∈ blk, 1 / 10 ≤ r.count) _
      (fun a s => fun r hr => rowsForGene_count_floor _ _ _ _ r hr) _ _ blk hblk e he

/-- C6 witness: one gene, one sample per group and the zero stream give a
two-row table whose first row respects the floor. -/
theorem C6_witness :
    (generate_normalized_counts 1 1 ⟨fun _ => 0, 0⟩).1.length = 1 * (2 * 1) ∧
    1 / 10 ≤ ((generate_normalized_counts 1 1 ⟨fun _ => 0, 0⟩).1.getD 0
      ⟨0, "", 0⟩).count := by
  have hC := C6_dims_and_floor 1 1 ⟨fun _ => 0, 0⟩
  refine ⟨hC.1, hC.2 _ (getD_mem_of_lt _ _ _ ?_)⟩
  rw [hC.1]
  omega

/-! ## C4: exactness of the k-mer index -/

theorem memVal_addKmer (m : List (List Char × List ℕ)) (km : List Char)
    (tid : ℕ) (km' : List Char) (t' : ℕ) :
    memVal (addKmer m km tid) km' t' ↔
      memVal m km' t' ∨ (km' = km ∧ t' = tid) := by
  unfold addKmer
  by_cases hany : m.any (fun p => p.1 = km) = true
  · rw [if_pos hany]
    constructor
    · rintro ⟨p', hp', hk, ht⟩
      obtain ⟨p, hp, rfl⟩ := List.mem_map.mp hp'
      by_cases hpk : p.1 = km
      · rw [if_pos hpk] at hk ht
        simp only [List.mem_append, List.mem_singleton] at ht
        rcases ht with ht | ht
        · exact Or.inl ⟨p, hp, hk, ht⟩
        · exact Or.inr ⟨hk ▸ hpk, ht⟩
      · rw [if_neg hpk] at hk ht
        exact Or.inl ⟨p, hp, hk, ht⟩
    · rintro (⟨p, hp, hk, ht⟩ | ⟨hkk, htt⟩)
      · by_cases hpk : p.1 = km
        · refine ⟨(p.1, p.2 ++ [tid]), ?_, hk, List.mem_append_left _ ht⟩
          have hmm := List.mem_map_of_mem
            (fun p => if p.1 = km then (p.1, p.2 ++ [tid]) else p) hp
          dsimp only at hmm
          rwa [if_pos hpk] at hmm
        · refine ⟨p, ?_, hk, ht⟩
          have hmm := List.mem_map_of_mem
            (fun p => if p.1 = km then (p.1, p.2 ++ [tid]) else p) hp
          dsimp only at hmm
          rwa [if_neg hpk] at hmm
      · rw [List.any_eq_true] at hany
        obtain ⟨p, hp, hpk⟩ := hany
        rw [decide_eq_true_eq] at hpk
        refine ⟨(p.1, p.2 ++ [tid]), ?_, hpk.trans hkk.symm, by simp [htt]⟩
        have hmm := List.mem_map_of_mem
          (fun p => if p.1 = km then (p.1, p.2 ++ [tid]) else p) hp
        dsimp only at hmm
        rwa [if_pos hpk] at hmm
  · rw [if_neg hany]
    constructor
    · rintro ⟨p, hp, hk, ht⟩
      rw [List.mem_append, List.mem_singleton] at hp
      rcases hp with hp | rfl
      · exact Or.inl ⟨p, hp, hk, ht⟩
      · simp only [List.mem_singleton] at ht
        exact Or.inr ⟨hk.symm, ht⟩
    · rintro (⟨p, hp, hk, ht⟩ | ⟨rfl, rfl⟩)
      · exact ⟨p, List.mem_append_left _ hp, hk, ht⟩
      · exact ⟨(km', [t']), List.mem_append_right _ (List.mem_singleton.mpr rfl),
          rfl, List.mem_singleton.mpr rfl⟩

theorem memVal_addTranscriptKmers (tid : ℕ) :
    ∀ (kms : List (List Char)) (m : List (List Char × List ℕ))
      (km' : List Char) (t' : ℕ),
      memVal (addTranscriptKmers tid m kms) km' t' ↔
        memVal m km' t' ∨ (t' = tid ∧ km' ∈ kms) := by
  intro kms
  induction kms with
  | nil => intro m km' t'; simp [addTranscriptKmers]
  | cons km rest ih =>
      intro m km' t'
      simp only [addTranscriptKmers]
      rw [ih, memVal_addKmer]
      simp only [List.mem_cons]
      tauto

theorem memVal_buildKmerMap (k : ℕ) :
    ∀ (ts : List (ℕ × List Char)) (m : List (List Char × List ℕ))
      (km : List Char) (t' : ℕ),
      memVal (buildKmerMap k m ts) km t' ↔
        memVal m km t' ∨
          ∃ p ∈ ts, t' = p.1 ∧ km ∈ generate_kmers_from_sequence p.2 k := by
  intro ts
  induction ts with
  | nil => intro m km t'; simp [buildKmerMap]
  | cons p rest ih =>
      intro m km t'
      obtain ⟨tid, seq⟩ := p
      simp only [buildKmerMap]
      rw [ih, memVal_addTranscriptKmers]
      simp only [List.mem_cons]
      constructor
      · rintro ((h | ⟨httid, hk⟩) | ⟨q, hq, httid, hk⟩)
        · exact Or.inl h
        · exact Or.inr ⟨(tid, seq), Or.inl rfl, httid, hk⟩
        · exact Or.inr ⟨q, Or.inr hq, httid, hk⟩
      · rintro (h | ⟨q, hq | hq, rfl, hk⟩)
        · exact Or.inl (Or.inl h)
        · subst hq; exact Or.inl (Or.inr ⟨rfl, hk⟩)
        · exact Or.inr ⟨q, hq, rfl, hk⟩

theorem keys_nodup_addKmer (m : List (List Char × List ℕ)) (km : List Char)
    (tid : ℕ) (hnd : (m.map Prod.fst).Nodup) :
    ((addKmer m km tid).map Prod.fst).Nodup := by
  unfold addKmer
  by_cases hany : m.any (fun p => p.1 = km) = true
  · rw [if_pos hany, List.map_map]
    have heq : m.map (Prod.fst ∘ fun p => if p.1 = km then (p.1, p.2 ++ [tid]) else p) =
        m.map Prod.fst := by
      refine List.map_congr_left ?_
      intro p _
      by_cases hpk : p.1 = km <;> simp [hpk]
    rw [heq]; exact hnd
  · rw [if_neg hany, List.map_append]
    rw [Bool.not_eq_true, List.any_eq_false] at hany
    have hkm : km ∉ m.map Prod.fst := by
      intro hmem
      obtain ⟨p, hp, hpk⟩ := List.mem_map.mp hmem
      exact hany p hp (by simp [hpk])
    rw [List.nodup_append]
    refine ⟨hnd, by simp, ?_⟩
    intro a ha hb
    simp only [List.map_cons, List.map_nil, List.mem_singleton] at hb
    subst hb
    exact hkm ha

theorem keys_nodup_addTranscriptKmers (tid : ℕ) :
    ∀ (kms : List (List Char)) (m : List (List Char × List ℕ)),
      (m.map Prod.fst).Nodup →
      ((addTranscriptKmers tid m kms).map Prod.fst).Nodup := by
  intro kms
  induction kms with
  | nil => intro m h; exact h
  | cons km rest ih =>
      intro m h
      exact ih _ (keys_nodup_addKmer m km tid h)

theorem keys_nodup_buildKmerMap (k : ℕ) :
    ∀ (ts : List (ℕ × List Char)) (m : List (List Char × List ℕ)),
      (m.map Prod.fst).Nodup →
      ((buildKmerMap k m ts).map Prod.fst).Nodup := by
  intro ts
  induction ts with
  | nil => intro m h; exact h
  | cons p rest ih =>
      obtain ⟨tid, seq⟩ := p
      intro m h
      exact ih _ (keys_nodup_addTranscriptKmers tid _ m h)

theorem eq_of_keys_nodup (m : List (List Char × List ℕ))
    (hnd : (m.map Prod.fst).Nodup) (p q : List Char × List ℕ)
    (hp : p ∈ m) (hq : q ∈ m) (hk : p.1 = q.1) : p = q := by
  induction m with
  | nil => simp at hp
  | cons a t ih =>
      simp only [List.map_cons, List.nodup_cons] at hnd
      rcases List.mem_cons.mp hp with rfl | hp' <;>
        rcases List.mem_cons.mp hq with rfl | hq'
      · rfl
      · exact absurd (hk ▸ List.mem_map_of_mem Prod.fst hq') hnd.1
      · exact absurd (hk ▸ List.mem_map_of_mem Prod.fst hp') hnd.1
      · exact ih hnd.2 hp' hq'

theorem mem_kmers_iff (seq : List Char) (k : ℕ) (km : List Char) :
    km ∈ generate_kmers_from_sequence seq k ↔ km.length = k ∧ km <:+: seq := by
  unfold generate_kmers_from_sequence
  by_cases hlt : seq.length < k
  · rw [if_pos hlt]
    simp only [List.not_mem_nil, false_iff, not_and]
    intro hl hinf
    have := List.IsInfix.length_le hinf
    omega
  · rw [if_neg hlt]
    simp only [List.mem_map, List.mem_range]
    constructor
    · rintro ⟨i, hi, rfl⟩
      refine ⟨?_, ?_⟩
      · rw [List.length_take, List.length_drop]; omega
      · exact List.IsInfix.trans
          ( List.IsPrefix.isInfix ( List.take_prefix k (seq.drop i)))
          (List.IsSuffix.isInfix (List.drop_suffix i seq))
    · rintro ⟨hl, hinf⟩
      obtain ⟨pre, suf, heq⟩ := hinf
      have hlen : pre.length + km.length + suf.length = seq.length := by
        rw [← heq]; simp [List.length_append]; omega
      refine ⟨pre.length, by omega, ?_⟩
      rw [← heq, List.append_assoc, List.drop_left, ← hl, List.take_left]

/-- C4: every record of the k-mer index pairs a k-mer with exactly the set
of transcripts whose sequence contains it as a contiguous substring, each
listed at most once (for every per-process set-iteration salt). -/
theorem C4_kmer_index_exact (salt : Bool) (transcripts : List (ℕ × List Char))
    (k : ℕ) (rec : List Char × List ℕ)
    (hrec : rec ∈ generate_kmer_index salt transcripts k) (tid : ℕ) :
    rec.2.Nodup ∧
    (tid ∈ rec.2 ↔ ∃ seq, (tid, seq) ∈ transcripts ∧ rec.1.length = k ∧
      rec.1 <:+: seq) := by
  unfold generate_kmer_index at hrec
  obtain ⟨p, hp, hrec⟩ := List.mem_map.mp hrec
  subst hrec
  constructor
  · by_cases hsalt : salt <;> simp [setList, hsalt, List.nodup_dedup]
  · have h1 : tid ∈ setList salt p.2 ↔ tid ∈ p.2 := by
      by_cases hsalt : salt <;> simp [setList, hsalt, List.mem_dedup]
    show tid ∈ setList salt p.2 ↔ _
    rw [h1]
    have h2 : tid ∈ p.2 ↔ memVal (buildKmerMap k [] transcripts) p.1 tid := by
      constructor
      · intro ht; exact ⟨p, hp, rfl, ht⟩
      · rintro ⟨q, hq, hk, ht⟩
        have hqp : q = p := eq_of_keys_nodup _
          (keys_nodup_buildKmerMap k transcripts [] (by simp)) q p hq hp hk
        exact hqp ▸ ht
    rw [h2, memVal_buildKmerMap]
    simp only [memVal, List.not_mem_nil, false_and, exists_false, false_or]
    constructor
    · rintro ⟨q, hq, rfl, hk⟩
      obtain ⟨hl, hinf⟩ := (mem_kmers_iff q.2 k p.1).mp hk
      exact ⟨q.2, by rw [Prod.mk.eta]; exact hq, hl, hinf⟩
    · rintro ⟨seq, hmem, hl, hinf⟩
      exact ⟨(tid, seq), hmem, rfl, (mem_kmers_iff seq k p.1).mpr ⟨hl, hinf⟩⟩

/-- C4 witness: one two-base transcript `AT` with `k = 1`; the record for
k-mer `A` lists exactly transcript 0. -/
theorem C4_witness :
    (['A'], [0]) ∈ generate_kmer_index false [(0, ['A', 'T'])] 1 ∧
    ([0] : List ℕ).Nodup ∧
    ((0 : ℕ) ∈ [0] ↔ ∃ seq, ((0 : ℕ), seq) ∈ [((0 : ℕ), ['A', 'T'])] ∧
      (['A'] : List Char).length = 1 ∧ ['A'] <:+: seq) :=
  ⟨by decide,
    C4_kmer_index_exact false [(0, ['A', 'T'])] 1 (['A'], [0]) (by decide) 0⟩

/-! ## C7: deduplication by maximum in the single-cell generator -/

theorem keys_nodup_insertMax (m : List ((ℕ × ℕ) × ℚ)) (key : ℕ × ℕ) (c : ℚ)
    (hnd : (m.map Prod.fst).Nodup) : ((insertMax m key c).map Prod.fst).Nodup := by
  unfold insertMax
  by_cases hany : m.any (fun p => p.1 = key) = true
  · rw [if_pos hany, List.map_map]
    have heq : m.map (Prod.fst ∘ fun p => if p.1 = key then (p.1, max p.2 c) else p) =
        m.map Prod.fst := by
      refine List.map_congr_left ?_
      intro p _
      by_cases hpk : p.1 = key <;> simp [hpk]
    rw [heq]; exact hnd
  · rw [if_neg hany, List.map_append]
    rw [Bool.not_eq_true, List.any_eq_false] at hany
    have hkm : key ∉ m.map Prod.fst := by
      intro hmem
      obtain ⟨p, hp, hpk⟩ := List.mem_map.mp hmem
      exact hany p hp (by simp [hpk])
    rw [List.nodup_append]
    refine ⟨hnd, by simp, ?_⟩
    intro a ha hb
    simp only [List.map_cons, List.map_nil, List.mem_singleton] at hb
    subst hb
    exact hkm ha

theorem mem_keys_insertMax (m : List ((ℕ × ℕ) × ℚ)) (key : ℕ × ℕ) (c : ℚ)
    (kv : (ℕ × ℕ) × ℚ) (hkv : kv ∈ m) :
    ∃ kv' ∈ insertMax m key c, kv'.1 = kv.1 := by
  unfold insertMax
  by_cases hany : m.any (fun p => p.1 = key) = true
  · rw [if_pos hany]
    refine ⟨if kv.1 = key then (kv.1, max kv.2 c) else kv,
      List.mem_map_of_mem _ hkv, ?_⟩
    by_cases hpk : kv.1 = key <;> simp [hpk]
  · rw [if_neg hany]
    exact ⟨kv, List.mem_append_left _ hkv, rfl⟩

theorem key_mem_insertMax (m : List ((ℕ × ℕ) × ℚ)) (key : ℕ × ℕ) (c : ℚ) :
    ∃ kv' ∈ insertMax m key c, kv'.1 = key := by
  unfold insertMax
  by_cases hany : m.any (fun p => p.1 = key) = true
  · rw [if_pos hany]
    have hany' := hany
    rw [List.any_eq_true] at hany'
    obtain ⟨p, hp, hpk⟩ := hany'
    rw [decide_eq_true_eq] at hpk
    refine ⟨(p.1, max p.2 c), ?_, hpk⟩
    have hmm := List.mem_map_of_mem
      (fun p => if p.1 = key then (p.1, max p.2 c) else p) hp
    dsimp only at hmm
    rwa [if_pos hpk] at hmm
  · rw [if_neg hany]
    exact ⟨(key, c), List.mem_append_right _ (List.mem_singleton.mpr rfl), rfl⟩

theorem groupMaxAux_spec :
    ∀ (l : List SCEntry) (m : List ((ℕ × ℕ) × ℚ)) (processed : List SCEntry),
      (m.map Prod.fst).Nodup →
      (∀ kv ∈ m, (∃ e ∈ processed, scKey e = kv.1 ∧ e.count = kv.2) ∧
        ∀ e ∈ processed, scKey e = kv.1 → e.count ≤ kv.2) →
      (∀ e ∈ processed, ∃ kv ∈ m, kv.1 = scKey e) →
      ((groupMaxAux m l).map Prod.fst).Nodup ∧
      (∀ kv ∈ groupMaxAux m l,
        (∃ e ∈ processed ++ l, scKey e = kv.1 ∧ e.count = kv.2) ∧
        ∀ e ∈ processed ++ l, scKey e = kv.1 → e.count ≤ kv.2) := by
  intro l
  induction l with
  | nil =>
      intro m processed hnd hinv _hcomp
      simp only [groupMaxAux, List.append_nil]
      exact ⟨hnd, hinv⟩
  | cons e rest ih =>
      intro m processed hnd hinv hcomp
      have hstep := ih (insertMax m (scKey e) e.count) (processed ++ [e])
        (keys_nodup_insertMax m (scKey e) e.count hnd) ?_ ?_
      · simp only [groupMaxAux]
        rw [show processed ++ e :: rest = (processed ++ [e]) ++ rest by simp]
        exact hstep
      · -- the witnessed / upper-bound invariant for the extended accumulator
        intro kv hkv
        unfold insertMax at hkv
        by_cases hany : m.any (fun p => p.1 = scKey e) = true
        · rw [if_pos hany] at hkv
          obtain ⟨p, hp, rfl⟩ := List.mem_map.mp hkv
          by_cases hpk : p.1 = scKey e
          · rw [if_pos hpk]
            constructor
            · rcases max_choice p.2 e.count with hmax | hmax
              · obtain ⟨e0, he0, hk0, hc0⟩ := (hinv p hp).1
                exact ⟨e0, List.mem_append_left _ he0, hk0, by rw [hc0]; exact hmax.symm⟩
              · exact ⟨e, List.mem_append_right _ (List.mem_singleton.mpr rfl),
                  hpk.symm, hmax.symm⟩
            · intro e' he' hk'
              rcases List.mem_append.mp he' with he' | he'
              · exact ((hinv p hp).2 e' he' hk').trans (le_max_left _ _)
              · rw [List.mem_singleton] at he'
                subst he'
                exact le_max_right _ _
          · rw [if_neg hpk]
            constructor
            · obtain ⟨e0, he0, hk0, hc0⟩ := (hinv p hp).1
              exact ⟨e0, List.mem_append_left _ he0, hk0, hc0⟩
            · intro e' he' hk'
              rcases List.mem_append.mp he' with he' | he'
              · exact (hinv p hp).2 e' he' hk'
              · rw [List.mem_singleton] at he'
                subst he'
                exact absurd hk'.symm hpk
        · rw [if_neg hany] at hkv
          rw [Bool.not_eq_true, List.any_eq_false] at hany
          rcases List.mem_append.mp hkv with hkv | hkv
          · have hne : kv.1 ≠ scKey e := by
              intro h
              exact hany kv hkv (by simp [h])
            constructor
            · obtain ⟨e0, he0, hk0, hc0⟩ := (hinv kv hkv).1
              exact ⟨e0, List.mem_append_left _ he0, hk0, hc0⟩
            · intro e' he' hk'
              rcases List.mem_append.mp he' with he' | he'
              · exact (hinv kv hkv).2 e' he' hk'
              · rw [List.mem_singleton] at he'
                subst he'
                exact absurd hk'.symm hne
          · rw [List.mem_singleton] at hkv
            subst hkv
            constructor
            · exact ⟨e, List.mem_append_right _ (List.mem_singleton.mpr rfl), rfl, rfl⟩
            · intro e' he' hk'
              rcases List.mem_append.mp he' with he' | he'
              · obtain ⟨kv', hkv', hk''⟩ := hcomp e' he'
                exact absurd (by simp [hk'' , hk']) (fun hh => hany kv' hkv' hh)
              · rw [List.mem_singleton] at he'
                subst he'
                exact le_refl _
      · -- completeness for the extended accumulator
        intro e' he'
        rcases List.mem_append.mp he' with he' | he'
        · obtain ⟨kv, hkv, hk⟩ := hcomp e' he'
          obtain ⟨kv', hkv', hk'⟩ := mem_keys_insertMax m (scKey e) e.count kv hkv
          exact ⟨kv', hkv', hk'.trans hk⟩
        · rw [List.mem_singleton] at he'
          obtain ⟨kv', hkv', hk'⟩ := key_mem_insertMax m (scKey e) e.count
          exact ⟨kv', hkv', by rw [hk', he']⟩

theorem groupMax_spec (l : List SCEntry) :
    ((groupMax l).map Prod.fst).Nodup ∧
    (∀ kv ∈ groupMax l,
      (∃ e ∈ l, scKey e = kv.1 ∧ e.count = kv.2) ∧
      ∀ e ∈ l, scKey e = kv.1 → e.count ≤ kv.2) := by
  have h := groupMaxAux_spec l [] [] (by simp) (by simp) (by simp)
  simpa [groupMax] using h

theorem boostRow_key (n_genes : ℕ) (row : (ℕ × ℕ) × ℚ) (s : RandState) :
    scKey (boostRow n_genes row s).1 = row.1 := by
  unfold boostRow
  dsimp only
  split <;> simp [scKey]

theorem mapState_boost_keys (n_genes : ℕ) :
    ∀ (l : List ((ℕ × ℕ) × ℚ)) (s : RandState),
      ((mapState (boostRow n_genes) l s).1.map scKey) = l.map Prod.fst := by
  intro l
  induction l with
  | nil => intro s; rfl
  | cons a t ih =>
      intro s
      simp only [mapState, List.map_cons]
      rw [boostRow_key, ih]

/-- C7: in the single-cell generator the final table holds each
`(gene_idx, cell_idx)` key at most once, and the deduplicated (pre-boost)
count of a key is the maximum of the raw counts drawn for it. -/
theorem C7_dedup_by_max (n_cells n_genes : ℕ) (s : RandState) :
    ((generate_simple_synthetic_data n_cells n_genes s).1.map scKey).Nodup ∧
    ∀ kv ∈ groupMax (scRawEntries n_cells n_genes s).1,
      (∃ e ∈ (scRawEntries n_cells n_genes s).1, scKey e = kv.1 ∧ e.count = kv.2) ∧
      ∀ e ∈ (scRawEntries n_cells n_genes s).1, scKey e = kv.1 → e.count ≤ kv.2 := by
  obtain ⟨hnd, hmax⟩ := groupMax_spec (scRawEntries n_cells n_genes s).1
  refine ⟨?_, hmax⟩
  have h1 : ((((groupMax (scRawEntries n_cells n_genes s).1).mergeSort
      (fun a b => keyLE a.1 b.1)).map Prod.fst)).Nodup :=
    ((List.mergeSort_perm (groupMax (scRawEntries n_cells n_genes s).1)
      (fun a b => keyLE a.1 b.1)).map Prod.fst).symm.nodup hnd
  simp only [generate_simple_synthetic_data, scGrouped]
  have h2 := mapState_boost_keys n_genes
    ((groupMax (scRawEntries n_cells n_genes s).1).mergeSort
      (fun a b => keyLE a.1 b.1))
    (scRawEntries n_cells n_genes s).2
  refine (((List.mergeSort_perm _ _).map scKey).symm.nodup ?_)
  rw [h2]
  exact h1

/-- C7 witness: `n_cells = 5`, `n_genes = 2` give one raw entry; its key
appears once and realizes the grouped maximum. -/
theorem C7_witness :
    ((generate_simple_synthetic_data 5 2 ⟨fun _ => 0, 0⟩).1.map scKey).Nodup ∧
    (∃ e ∈ (scRawEntries 5 2 ⟨fun _ => 0, 0⟩).1,
      scKey e = ((groupMax (scRawEntries 5 2 ⟨fun _ => 0, 0⟩).1).getD 0 ((0, 0), 0)).1 ∧
      e.count = ((groupMax (scRawEntries 5 2 ⟨fun _ => 0, 0⟩).1).getD 0 ((0, 0), 0)).2) ∧
    ((scRawEntries 5 2 ⟨fun _ => 0, 0⟩).1.getD 0 ⟨0, 0, 0⟩).count ≤
      ((groupMax (scRawEntries 5 2 ⟨fun _ => 0, 0⟩).1).getD 0 ((0, 0), 0)).2 := by
  have hC := C7_dedup_by_max 5 2 ⟨fun _ => 0, 0⟩
  have hkv : ((groupMax (scRawEntries 5 2 ⟨fun _ => 0, 0⟩).1).getD 0 ((0, 0), 0)) ∈
      groupMax (scRawEntries 5 2 ⟨fun _ => 0, 0⟩).1 :=
    getD_mem_of_lt _ _ _ (by decide)
  have he : ((scRawEntries 5 2 ⟨fun _ => 0, 0⟩).1.getD 0 ⟨0, 0, 0⟩) ∈
      (scRawEntries 5 2 ⟨fun _ => 0, 0⟩).1 :=
    getD_mem_of_lt _ _ _ (by decide)
  exact ⟨hC.1, (hC.2 _ hkv).1, (hC.2 _ hkv).2 _ he (by decide)⟩

/-! ## C3: determinism of the sequencing fixture generator -/

/-- C3 counterexample: the claim that two runs with the same configuration
and seed always produce byte-identical files fails, because
`generate_kmer_index` emits `list(set(transcript_list))`, whose order
depends on the per-process string-hash salt, which `random.seed` does not
control.  With two transcripts sharing their single 500-mer, the two salt
values yield different `kmer_index.json` contents for the same seed
stream. -/
theorem gen_seq_zero (n : ℕ) : ∀ p : ℕ,
    generate_random_sequence n ⟨fun _ => 0, p⟩ =
      (List.replicate n 'A', ⟨fun _ => 0, p + n⟩) := by
  induction n with
  | zero => intro p; simp [generate_random_sequence]
  | succ m ih =>
      intro p
      have hch : choice bases ⟨fun _ => 0, p⟩ = ('A', ⟨fun _ => 0, p + 1⟩) := rfl
      simp only [generate_random_sequence, hch, ih, List.replicate_succ]
      simp only [Prod.mk.injEq, List.cons.injEq, RandState.mk.injEq, true_and,
        and_true, eq_self_iff_true]
      omega

theorem gen_transcripts_zero :
    generate_transcript_sequences 2 500 3000 ⟨fun _ => 0, 0⟩ =
      ([(0, List.replicate 500 'A'), (1, List.replicate 500 'A')],
        ⟨fun _ => 0, 1002⟩) := by
  have h1 : randint 500 3000 ⟨fun _ => 0, 0⟩ = (500, ⟨fun _ => 0, 1⟩) := rfl
  have h2 : randint 500 3000 ⟨fun _ => 0, 501⟩ = (500, ⟨fun _ => 0, 502⟩) := rfl
  simp only [generate_transcript_sequences, genTranscriptsAux, h1, h2, gen_seq_zero]

set_option maxRecDepth 10000 in
theorem C3_counterexample :
    (generateDataRun ⟨2, 0, 100, 500, 0⟩ true ⟨fun _ => 0, 0⟩).kmerIndexFile ≠
    (generateDataRun ⟨2, 0, 100, 500, 0⟩ false ⟨fun _ => 0, 0⟩).kmerIndexFile := by
  have hk : ∀ salt, (generateDataRun ⟨2, 0, 100, 500, 0⟩ salt
      ⟨fun _ => 0, 0⟩).kmerIndexFile =
      generate_kmer_index salt
        [(0, List.replicate 500 'A'), (1, List.replicate 500 'A')] 500 := by
    intro salt
    simp only [generateDataRun, gen_transcripts_zero]
  rw [hk, hk]
  decide

/-- C3 (amended): with the per-process string-hash salt fixed, two runs
with the same configuration and seed produce identical outputs, all draws
being determined by the single seed; and the salt can only affect
`kmer_index.json` — the reads, transcripts and true-expression files are
salt-independent. -/
theorem C3_determinism_given_salt (args : GenArgs) (salt1 salt2 : Bool)
    (seed1 seed2 : ℕ) (h : seed1 = seed2) :
    generateDataMain args salt1 seed1 = generateDataMain args salt1 seed2 ∧
    (generateDataMain args salt1 seed1).readsFile =
      (generateDataMain args salt2 seed1).readsFile ∧
    (generateDataMain args salt1 seed1).transcriptsFile =
      (generateDataMain args salt2 seed1).transcriptsFile ∧
    (generateDataMain args salt1 seed1).trueExpressionFile =
      (generateDataMain args salt2 seed1).trueExpressionFile := by
  subst h
  exact ⟨rfl, rfl, rfl, rfl⟩

/-- C3 witness: the amended determinism at a concrete configuration, seed
and salt pair. -/
theorem C3_determinism_witness :
    generateDataMain ⟨1, 0, 100, 31, 0⟩ false 42 =
      generateDataMain ⟨1, 0, 100, 31, 0⟩ false 42 ∧
    (generateDataMain ⟨1, 0, 100, 31, 0⟩ false 42).readsFile =
      (generateDataMain ⟨1, 0, 100, 31, 0⟩ true 42).readsFile ∧
    (generateDataMain ⟨1, 0, 100, 31, 0⟩ false 42).transcriptsFile =
      (generateDataMain ⟨1, 0, 100, 31, 0⟩ true 42).transcriptsFile ∧
    (generateDataMain ⟨1, 0, 100, 31, 0⟩ false 42).trueExpressionFile =
      (generateDataMain ⟨1, 0, 100, 31, 0⟩ true 42).trueExpressionFile :=
  C3_determinism_given_salt ⟨1, 0, 100, 31, 0⟩ false true 42 42 rfl

end BGVR
